import Mathlib

/-!
# A shallow embedding of `unsafelru/lru.go`

The cache of `lru.go` is a struct of four fields: the capacity `size`, the
recency list `evictList` (a `container/list` doubly linked list, front = most
recently used), the index `items` (a Go map from key to `*list.Element`) and the
optional callback `onEvict`.

Modelling choices, all taken from the Go source and the Go semantics it runs on:

* a `*list.Element` is an address (`Nat`), `nil` is `none`; the `Value` field of
  the element at address `p` is `heap[p]`;
* `Element.Value` is an `interface{}`; its dynamic type is either the struct
  `entry` or the pointer `*entry`, and the type assertion `x.(*entry)` succeeds
  on the second only;
* the list is the sequence of the addresses linked into it, front first;
  `e.list == l` is membership of the address in that sequence;
* the map is an association list; the order of its pairs is the order in which a
  `range` loop happens to visit them;
* a run-time panic is an outcome of its own, and it carries the state that the
  statements executed before it have left behind;
* calling `onEvict` is recorded by appending the two arguments to `calls`;
* keys range over a type with decidable equality (the hashable, comparable Go
  values); Go `int` is 64 bit, the one subtraction of the file wraps.
-/

namespace GolangLru

/-- The struct `entry` of lru.go: a key together with its value. -/
structure entry (K V : Type) where
  key : K
  val : V
deriving DecidableEq

/-- The dynamic content of `list.Element.Value`, an `interface{}`: a struct
`entry` stored by value, or a pointer `*entry` (shown with its pointee). -/
inductive Dyn (K V : Type) where
  | entryStruct (e : entry K V)
  | entryPtr (e : entry K V)
deriving DecidableEq

/-- The type `*list.Element`: an address, or `none` for `nil`. -/
abbrev ElemPtr := Option Nat

/-- The second argument handed to `onEvict`, an `interface{}`: a stored value,
or a `*list.Element`. -/
inductive CbVal (V : Type) where
  | val (v : V)
  | element (e : ElemPtr)
deriving DecidableEq

/-- The struct `LRU` of lru.go, with the two pieces of program state its methods
act on besides the four fields: the elements allocated so far (`heap`) and the
record of the callback invocations made so far (`calls`). `onEvict` is `true`
when the callback is not `nil`. -/
structure LRU (K V : Type) where
  size : Int
  evictList : List Nat
  items : List (K × ElemPtr)
  onEvict : Bool
  heap : List (Dyn K V)
  calls : List (K × CbVal V)
deriving DecidableEq

/-- How a method call ends: it returns `a` in state `s`, or it panics and
leaves state `s` behind. -/
inductive Outcome (σ α : Type) where
  | ret (s : σ) (a : α)
  | panic (s : σ)
deriving DecidableEq

/-- The state a call leaves, however it ended. -/
def Outcome.state {σ α : Type} : Outcome σ α → σ
  | .ret s _ => s
  | .panic s => s

/-- The value a call returned, `none` when it panicked. -/
def Outcome.result {σ α : Type} : Outcome σ α → Option α
  | .ret _ a => some a
  | .panic _ => none

/-- Whether a call ended in a panic. -/
def Outcome.panicked {σ α : Type} : Outcome σ α → Bool
  | .ret _ _ => false
  | .panic _ => true

/-- The type assertion `x.(*entry)`: `none` stands for the run-time panic. -/
def assertEntryPtr {K V : Type} : Dyn K V → Option (entry K V)
  | .entryPtr e => some e
  | .entryStruct _ => none

/-- Go `int` arithmetic: the 64 bit two's complement value of `x`. -/
def wrapInt (x : Int) : Int := (x + 2 ^ 63) % 2 ^ 64 - 2 ^ 63

/-! ## `container/list` -/

namespace list

/-- `l.Len()`. -/
def Len (l : List Nat) : Int := (l.length : Int)

/-- `l.Back()`: the last element, `nil` on the empty list. -/
def Back (l : List Nat) : ElemPtr := l.getLast?

/-- `l.Init()`: the list is emptied. -/
def Init (_l : List Nat) : List Nat := []

/-- `l.PushFront(v)` links the freshly allocated element at address `p` in
front. -/
def PushFront (l : List Nat) (p : Nat) : List Nat := p :: l

/-- `l.MoveToFront(e)`: nothing when `e` is not an element of `l` or is already
in front; `none` is the nil dereference of `e.list`. -/
def MoveToFront (l : List Nat) : ElemPtr → Option (List Nat)
  | none => none
  | some p => if l.contains p = false ∨ l.head? = some p then some l else some (p :: l.erase p)

/-- `l.Remove(e)`: unlinks `e` when it is an element of `l`; `none` is the nil
dereference of `e.list`. -/
def Remove (l : List Nat) : ElemPtr → Option (List Nat)
  | none => none
  | some p => some (l.erase p)

end list

/-! ## The Go map `items` -/

/-- The lookup `m[k]`, `none` when the key is absent (`ok == false`). -/
def mapLookup {K : Type} [DecidableEq K] : List (K × ElemPtr) → K → Option ElemPtr
  | [], _ => none
  | (k1, p) :: m, k => if k1 = k then some p else mapLookup m k

/-- The statement `delete(m, k)`. -/
def mapDelete {K : Type} [DecidableEq K] (m : List (K × ElemPtr)) (k : K) : List (K × ElemPtr) :=
  m.filter (fun kv => decide (kv.1 ≠ k))

/-- The assignment `m[k] = p`. -/
def mapInsert {K : Type} [DecidableEq K] (m : List (K × ElemPtr)) (k : K) (p : ElemPtr) :
    List (K × ElemPtr) :=
  mapDelete m k ++ [(k, p)]

/-! ## `lru.go` -/

/-- The expression `e.Value.(*entry)`: `none` when it panics, by the nil
dereference of `e` or by the failed type assertion. -/
def LRU.entryOf {K V : Type} (c : LRU K V) : ElemPtr → Option (entry K V)
  | none => none
  | some p => (c.heap.get? p).bind assertEntryPtr

/-- The struct literal of `NewLRU`: the given size and callback, `list.New()`
and an empty map; nothing allocated, nothing called yet. -/
def emptyLRU {K V : Type} (size : Int) (onEvict : Bool) : LRU K V :=
  { size := size, evictList := [], items := [], onEvict := onEvict, heap := [], calls := [] }

/-- The constructor `NewLRU(size, onEvict)`. -/
def NewLRU {K V : Type} (size : Int) (onEvict : Bool) : Except String (LRU K V) :=
  if size ≤ 0 then
    .error "must provide a positive size"
  else
    .ok (emptyLRU size onEvict)

/-- The method `c.Len()`. -/
def LRU.Len {K V : Type} (c : LRU K V) : Int := list.Len c.evictList

/-- The method `c.removeElement(e)`. -/
def LRU.removeElement {K V : Type} [DecidableEq K] (c : LRU K V) (e : ElemPtr) :
    Outcome (LRU K V) Unit :=
  match list.Remove c.evictList e with
  | none => .panic c
  | some l =>
    let c1 := { c with evictList := l }
    match c1.entryOf e with
    | none => .panic c1
    | some kv =>
      let c2 := { c1 with items := mapDelete c1.items kv.key }
      if c2.onEvict then
        .ret { c2 with calls := c2.calls ++ [(kv.key, CbVal.val kv.val)] } ()
      else
        .ret c2 ()

/-- The method `c.removeOldest()`. -/
def LRU.removeOldest {K V : Type} [DecidableEq K] (c : LRU K V) : Outcome (LRU K V) Unit :=
  match list.Back c.evictList with
  | none => .ret c ()
  | some p => c.removeElement (some p)

/-- The loop `for k, v := range c.items` of `Purge`, visiting the pairs in the
given order. -/
def purgeLoop {K V : Type} [DecidableEq K] : List (K × ElemPtr) → LRU K V → LRU K V
  | [], c => c
  | (k, v) :: rest, c =>
    let c1 := if c.onEvict then { c with calls := c.calls ++ [(k, CbVal.element v)] } else c
    purgeLoop rest { c1 with items := mapDelete c1.items k }

/-- The method `c.Purge()` when the `range` loop visits the map in `order`. -/
def LRU.PurgeIn {K V : Type} [DecidableEq K] (order : List (K × ElemPtr)) (c : LRU K V) :
    Outcome (LRU K V) Unit :=
  let c1 := purgeLoop order c
  .ret { c1 with evictList := list.Init c1.evictList } ()

/-- The method `c.Purge()`, the map visited in the order of its association
list. -/
def LRU.Purge {K V : Type} [DecidableEq K] (c : LRU K V) : Outcome (LRU K V) Unit :=
  c.PurgeIn c.items

/-- The method `c.Add(key, val)`. -/
def LRU.Add {K V : Type} [DecidableEq K] (c : LRU K V) (key : K) (val : V) :
    Outcome (LRU K V) Bool :=
  match mapLookup c.items key with
  | some ent =>
    match list.MoveToFront c.evictList ent with
    | none => .panic c
    | some l =>
      let c1 := { c with evictList := l }
      match ent, c1.entryOf ent with
      | some p, some kv =>
        .ret { c1 with heap := c1.heap.set p (Dyn.entryPtr { kv with val := val }) } false
      | _, _ => .panic c1
  | none =>
    let p := c.heap.length
    let c1 := { c with heap := c.heap ++ [Dyn.entryStruct { key := key, val := val }],
                       evictList := list.PushFront c.evictList p }
    let c2 := { c1 with items := mapInsert c1.items key (some p) }
    let evict := decide (list.Len c2.evictList > c2.size)
    if evict then
      match c2.removeOldest with
      | .panic s => .panic s
      | .ret s _ => .ret s evict
    else
      .ret c2 evict

/-- The method `c.Get(key)`; a returned `nil` value is `none`. -/
def LRU.Get {K V : Type} [DecidableEq K] (c : LRU K V) (key : K) :
    Outcome (LRU K V) (Option V × Bool) :=
  match mapLookup c.items key with
  | some ent =>
    match list.MoveToFront c.evictList ent with
    | none => .panic c
    | some l =>
      let c1 := { c with evictList := l }
      if ent = none then
        .ret c1 (none, false)
      else
        match c1.entryOf ent with
        | none => .panic c1
        | some kv => .ret c1 (some kv.val, true)
  | none => .ret c (none, false)

/-- The method `c.Contains(key)`. -/
def LRU.Contains {K V : Type} [DecidableEq K] (c : LRU K V) (key : K) : Bool :=
  (mapLookup c.items key).isSome

/-- The method `c.Peek(key)`. -/
def LRU.Peek {K V : Type} [DecidableEq K] (c : LRU K V) (key : K) :
    Outcome (LRU K V) (Option V × Bool) :=
  match mapLookup c.items key with
  | some ent =>
    match c.entryOf ent with
    | none => .panic c
    | some kv => .ret c (some kv.val, true)
  | none => .ret c (none, false)

/-- The method `c.Remove(key)`. -/
def LRU.Remove {K V : Type} [DecidableEq K] (c : LRU K V) (key : K) : Outcome (LRU K V) Bool :=
  match mapLookup c.items key with
  | some ent =>
    match c.removeElement ent with
    | .panic s => .panic s
    | .ret s _ => .ret s true
  | none => .ret c false

/-- The method `c.RemoveOldest()`. -/
def LRU.RemoveOldest {K V : Type} [DecidableEq K] (c : LRU K V) :
    Outcome (LRU K V) (Option K × Option V × Bool) :=
  match list.Back c.evictList with
  | some p =>
    match c.removeElement (some p) with
    | .panic s => .panic s
    | .ret s _ =>
      match s.entryOf (some p) with
      | none => .panic s
      | some kv => .ret s (some kv.key, some kv.val, true)
  | none => .ret c (none, none, false)

/-- The method `c.GetOldest()`. -/
def LRU.GetOldest {K V : Type} (c : LRU K V) : Outcome (LRU K V) (Option K × Option V × Bool) :=
  match list.Back c.evictList with
  | some p =>
    match c.entryOf (some p) with
    | none => .panic c
    | some kv => .ret c (some kv.key, some kv.val, true)
  | none => .ret c (none, none, false)

/-- The loop of `Keys`, over the addresses met from `Back()` along `Prev()`:
each step reads `ent.Value.(*entry).key`; `none` when a step panics. -/
def keysLoop {K V : Type} (c : LRU K V) : List Nat → Option (List K)
  | [] => some []
  | p :: rest =>
    match c.entryOf (some p) with
    | none => none
    | some kv => (keysLoop c rest).map (fun ks => kv.key :: ks)

/-- The method `c.Keys()`. -/
def LRU.Keys {K V : Type} (c : LRU K V) : Outcome (LRU K V) (List K) :=
  match keysLoop c c.evictList.reverse with
  | none => .panic c
  | some ks => .ret c ks

/-- The loop `for i := 0; i < diff; i++ { c.removeOldest() }` of `Resize`. -/
def resizeLoop {K V : Type} [DecidableEq K] : Nat → LRU K V → Outcome (LRU K V) Unit
  | 0, c => .ret c ()
  | n + 1, c =>
    match c.removeOldest with
    | .panic s => .panic s
    | .ret s _ => resizeLoop n s

/-- The method `c.Resize(size)`. -/
def LRU.Resize {K V : Type} [DecidableEq K] (c : LRU K V) (size : Int) : Outcome (LRU K V) Int :=
  let diff0 := wrapInt (c.Len - size)
  let diff := if diff0 < 0 then 0 else diff0
  match resizeLoop diff.toNat c with
  | .panic s => .panic s
  | .ret s _ => .ret { s with size := size } diff

/-! ## Sequences of calls -/

/-- A call of one of the public methods, with its arguments. -/
inductive Op (K V : Type) where
  | Add (key : K) (val : V)
  | Get (key : K)
  | Peek (key : K)
  | Contains (key : K)
  | Remove (key : K)
  | RemoveOldest
  | GetOldest
  | Keys
  | Len
  | Purge
  | Resize (size : Int)
deriving DecidableEq

/-- The state a call leaves behind, whether it returned or panicked. -/
def Op.apply {K V : Type} [DecidableEq K] : Op K V → LRU K V → LRU K V
  | .Add key val, c => (c.Add key val).state
  | .Get key, c => (c.Get key).state
  | .Peek key, c => (c.Peek key).state
  | .Contains _, c => c
  | .Remove key, c => (c.Remove key).state
  | .RemoveOldest, c => c.RemoveOldest.state
  | .GetOldest, c => c.GetOldest.state
  | .Keys, c => c.Keys.state
  | .Len, c => c
  | .Purge, c => c.Purge.state
  | .Resize size, c => (c.Resize size).state

/-- The state after a sequence of `Add` calls, each applied to the state its
predecessor left. -/
def addAll {K V : Type} [DecidableEq K] (c : LRU K V) : List (K × V) → LRU K V
  | [] => c
  | (k, v) :: rest => addAll (c.Add k v).state rest

/-- A Go `int`. -/
def isInt (x : Int) : Prop := -2 ^ 63 ≤ x ∧ x < 2 ^ 63

/-- Four keys, for the scenario of the LRU ordering property. -/
inductive Key where
  | A
  | B
  | C
  | D
deriving DecidableEq

/-- The state in which a call returned, `none` when it panicked. -/
def Outcome.returned {σ α : Type} : Outcome σ α → Option σ
  | .ret s _ => some s
  | .panic _ => none

/-- The state in which a call of a public method returns, `none` when it
panics. -/
def Op.returned {K V : Type} [DecidableEq K] : Op K V → LRU K V → Option (LRU K V)
  | .Add key val, c => (c.Add key val).returned
  | .Get key, c => (c.Get key).returned
  | .Peek key, c => (c.Peek key).returned
  | .Contains _, c => some c
  | .Remove key, c => (c.Remove key).returned
  | .RemoveOldest, c => c.RemoveOldest.returned
  | .GetOldest, c => c.GetOldest.returned
  | .Keys, c => c.Keys.returned
  | .Len, c => some c
  | .Purge, c => c.Purge.returned
  | .Resize size, c => (c.Resize size).returned

/-- A sequence of calls, each made in the state in which its predecessor
returned; `none` as soon as one of them panics. -/
def runOps {K V : Type} [DecidableEq K] (c : LRU K V) : List (Op K V) → Option (LRU K V)
  | [] => some c
  | op :: rest =>
    match op.returned c with
    | none => none
    | some s => runOps s rest

/-- The key of the entry that a `Value` holds, by value or behind the pointer. -/
def Dyn.key {K V : Type} : Dyn K V → K
  | .entryStruct e => e.key
  | .entryPtr e => e.key

/-- The key carried by the list element at address `a`, read without a type
assertion; `none` when nothing is allocated there. -/
def LRU.keyAt {K V : Type} (c : LRU K V) (a : Nat) : Option K :=
  (c.heap.get? a).map Dyn.key

/-- The reference model of the recency order, written from the words of the
specification, not from the code: a list of keys, oldest first, with the
capacity. `Add` and a `Get` hit move the key to the end, overflow and
`RemoveOldest` drop the first key, `Remove` deletes the key, `Resize` drops the
leading surplus, `Purge` empties the list. -/
def refStep {K V : Type} [DecidableEq K] : Op K V → List K × Int → List K × Int
  | .Add k _, (ks, cap) =>
    if k ∈ ks then (ks.erase k ++ [k], cap)
    else if ((ks.length : Int) + 1 > cap) then ((ks ++ [k]).tail, cap)
    else (ks ++ [k], cap)
  | .Get k, (ks, cap) => if k ∈ ks then (ks.erase k ++ [k], cap) else (ks, cap)
  | .Remove k, (ks, cap) => (ks.erase k, cap)
  | .RemoveOldest, (ks, cap) => (ks.tail, cap)
  | .Resize n, (ks, _) => (ks.drop (ks.length - n.toNat), n)
  | .Purge, (_, cap) => ([], cap)
  | .Peek _, s => s
  | .Contains _, s => s
  | .GetOldest, s => s
  | .Keys, s => s
  | .Len, s => s

/-- The key list of the reference model after a sequence of calls on a fresh
cache of the given capacity. -/
def refKeys {K V : Type} [DecidableEq K] (capacity : Int) (ops : List (Op K V)) : List K :=
  (ops.foldl (fun s op => refStep op s) ([], capacity)).1

/-- The shape of the states in which the calls of `lru.go` return: every
allocated `Value` is an `entry` struct, the map holds, in the order of
insertion, the addresses of the list from back to front, each under the key that
the element carries, no key and no address twice. -/
structure Wf {K V : Type} (c : LRU K V) : Prop where
  allStruct : ∀ v ∈ c.heap, assertEntryPtr v = none
  ptrs : c.items.map Prod.snd = c.evictList.reverse.map some
  keys : ∀ kv ∈ c.items, ∃ a, kv.2 = some a ∧ c.keyAt a = some kv.1
  nodupKeys : (c.items.map Prod.fst).Nodup
  nodupList : c.evictList.Nodup
  bound : ∀ a ∈ c.evictList, a < c.heap.length

/-! ## The length of the list against the capacity -/

/-- `MoveToFront` keeps the length of the list. -/
theorem list.MoveToFront_length {l l2 : List Nat} {e : ElemPtr}
    (h : list.MoveToFront l e = some l2) : l2.length = l.length := by
  cases e with
  | none => simp [list.MoveToFront] at h
  | some p =>
    simp only [list.MoveToFront] at h
    split at h
    · simp at h; rw [← h]
    · rename_i hc
      simp only [not_or] at hc
      have hp : p ∈ l := by
        have := hc.1
        simpa using this
      simp at h
      rw [← h, List.length_cons, List.length_erase_of_mem hp]
      have : 0 < l.length := List.length_pos_of_mem hp
      omega

/-- What `removeElement` leaves: a list no longer than before, the same capacity. -/
theorem removeElement_state {K V : Type} [DecidableEq K] (c : LRU K V) (e : ElemPtr) :
    (c.removeElement e).state.evictList.length ≤ c.evictList.length ∧
    (c.removeElement e).state.size = c.size := by
  cases e with
  | none => simp [LRU.removeElement, list.Remove, Outcome.state]
  | some p =>
    simp only [LRU.removeElement, list.Remove]
    split
    · simp [Outcome.state, List.length_erase_le]
    · split <;> simp [Outcome.state, List.length_erase_le]

/-- What `removeElement` leaves of the list, on a non-nil element: the element is
unlinked, also when the call goes on to panic. -/
theorem removeElement_some_list {K V : Type} [DecidableEq K] (c : LRU K V) (p : Nat) :
    (c.removeElement (some p)).state.evictList = c.evictList.erase p := by
  simp only [LRU.removeElement, list.Remove]
  split
  · simp [Outcome.state]
  · split <;> simp [Outcome.state]

/-- What `removeOldest` leaves: one element less (none less on the empty list),
the same capacity. -/
theorem removeOldest_state {K V : Type} [DecidableEq K] (c : LRU K V) :
    c.removeOldest.state.evictList.length = c.evictList.length - 1 ∧
    c.removeOldest.state.size = c.size := by
  unfold LRU.removeOldest
  split
  · rename_i h
    simp only [list.Back, List.getLast?_eq_none_iff] at h
    simp [Outcome.state, h]
  · rename_i p h
    simp only [list.Back] at h
    have hp : p ∈ c.evictList := List.mem_of_getLast?_eq_some h
    refine ⟨?_, (removeElement_state c (some p)).2⟩
    rw [removeElement_some_list, List.length_erase_of_mem hp]

/-- `Add` preserves `Len() <= size` and leaves the capacity as it was. -/
theorem Add_state {K V : Type} [DecidableEq K] (c : LRU K V) (key : K) (val : V)
    (h : c.Len ≤ c.size) :
    (c.Add key val).state.Len ≤ (c.Add key val).state.size ∧
    (c.Add key val).state.size = c.size := by
  simp only [LRU.Len, list.Len] at h ⊢
  unfold LRU.Add
  split
  · split
    · simpa [Outcome.state] using h
    · rename_i l hl
      have hlen := list.MoveToFront_length hl
      dsimp only
      split <;> simp [Outcome.state, hlen, h]
  · simp only []
    split
    · rename_i hev
      have hs := removeOldest_state
        ({ c with heap := c.heap ++ [Dyn.entryStruct { key := key, val := val }],
                  evictList := list.PushFront c.evictList c.heap.length,
                  items := mapInsert c.items key (some c.heap.length) } : LRU K V)
      split
      · rename_i s heq
        rw [heq] at hs
        simp only [Outcome.state, list.PushFront, List.length_cons, Nat.add_sub_cancel] at hs ⊢
        rw [hs.1, hs.2]
        exact ⟨h, rfl⟩
      · rename_i s u heq
        rw [heq] at hs
        simp only [Outcome.state, list.PushFront, List.length_cons, Nat.add_sub_cancel] at hs ⊢
        rw [hs.1, hs.2]
        exact ⟨h, rfl⟩
    · rename_i hev
      simp only [list.Len, list.PushFront, List.length_cons, gt_iff_lt, decide_eq_true_eq,
        not_lt] at hev
      simp only [Outcome.state, list.PushFront, List.length_cons]
      exact ⟨hev, trivial⟩

/-- `Get` leaves the length of the list and the capacity as they were. -/
theorem Get_state {K V : Type} [DecidableEq K] (c : LRU K V) (key : K) :
    (c.Get key).state.evictList.length = c.evictList.length ∧ (c.Get key).state.size = c.size := by
  unfold LRU.Get
  split
  · split
    · simp [Outcome.state]
    · rename_i l hl
      have hlen := list.MoveToFront_length hl
      simp only []
      split
      · simp [Outcome.state, hlen]
      · split <;> simp [Outcome.state, hlen]
  · simp [Outcome.state]

/-- `Peek` leaves the state as it was. -/
theorem Peek_state {K V : Type} [DecidableEq K] (c : LRU K V) (key : K) :
    (c.Peek key).state = c := by
  unfold LRU.Peek
  split
  · split <;> rfl
  · rfl

/-- `GetOldest` leaves the state as it was. -/
theorem GetOldest_state {K V : Type} (c : LRU K V) : c.GetOldest.state = c := by
  unfold LRU.GetOldest
  split
  · split <;> rfl
  · rfl

/-- `Keys` leaves the state as it was. -/
theorem Keys_state {K V : Type} (c : LRU K V) : c.Keys.state = c := by
  unfold LRU.Keys
  split <;> rfl

/-- `Remove` leaves a list no longer than before and the same capacity. -/
theorem Remove_state {K V : Type} [DecidableEq K] (c : LRU K V) (key : K) :
    (c.Remove key).state.evictList.length ≤ c.evictList.length ∧
    (c.Remove key).state.size = c.size := by
  unfold LRU.Remove
  split
  · rename_i ent _
    have hs := removeElement_state c ent
    split
    · rename_i s heq
      rw [heq] at hs
      exact hs
    · rename_i s u heq
      rw [heq] at hs
      exact hs
  · simp [Outcome.state]

/-- `RemoveOldest` leaves a list no longer than before and the same capacity. -/
theorem RemoveOldest_state {K V : Type} [DecidableEq K] (c : LRU K V) :
    c.RemoveOldest.state.evictList.length ≤ c.evictList.length ∧
    c.RemoveOldest.state.size = c.size := by
  unfold LRU.RemoveOldest
  split
  · rename_i p _
    have hs := removeElement_state c (some p)
    split
    · rename_i s heq
      rw [heq] at hs
      exact hs
    · rename_i s u heq
      rw [heq] at hs
      simp only [Outcome.state] at hs
      split <;> exact hs
  · simp [Outcome.state]

/-- The loop of `Purge` leaves the capacity as it was. -/
theorem purgeLoop_size {K V : Type} [DecidableEq K] (order : List (K × ElemPtr)) (c : LRU K V) :
    (purgeLoop order c).size = c.size := by
  induction order generalizing c with
  | nil => rfl
  | cons kv rest ih =>
    obtain ⟨k, v⟩ := kv
    simp only [purgeLoop]
    rw [ih]
    split <;> rfl

/-- A pair that the loop of `Purge` leaves in the map was there before, and its
key is none of the keys visited. -/
theorem purgeLoop_items {K V : Type} [DecidableEq K] (order : List (K × ElemPtr)) (c : LRU K V)
    (kv : K × ElemPtr)
    (h : kv ∈ (purgeLoop order c).items) : kv ∈ c.items ∧ kv.1 ∉ order.map Prod.fst := by
  induction order generalizing c with
  | nil => exact ⟨h, by simp⟩
  | cons x rest ih =>
    obtain ⟨k, v⟩ := x
    simp only [purgeLoop] at h
    have h2 := ih _ h
    have h3 : kv ∈ mapDelete c.items k := by
      have := h2.1
      split at this <;> exact this
    simp only [mapDelete, List.mem_filter, decide_eq_true_eq] at h3
    refine ⟨h3.1, ?_⟩
    simp only [List.map_cons, List.mem_cons, not_or]
    exact ⟨h3.2, h2.2⟩

/-- What the loop of `Resize` leaves: a list no longer than before, the same
capacity, and `n` elements less when it did not panic. -/
theorem resizeLoop_state {K V : Type} [DecidableEq K] (n : Nat) (c : LRU K V) :
    (resizeLoop n c).state.evictList.length ≤ c.evictList.length ∧
    (resizeLoop n c).state.size = c.size ∧
    ((resizeLoop n c).panicked = false →
      (resizeLoop n c).state.evictList.length = c.evictList.length - n) := by
  induction n generalizing c with
  | zero => simp [resizeLoop, Outcome.state]
  | succ n ih =>
    have hs := removeOldest_state c
    simp only [resizeLoop]
    split
    · rename_i s heq
      rw [heq] at hs
      simp only [Outcome.state] at hs ⊢
      refine ⟨by omega, hs.2, by simp [Outcome.panicked]⟩
    · rename_i s u heq
      rw [heq] at hs
      simp only [Outcome.state] at hs
      have h2 := ih s
      refine ⟨by omega, by rw [h2.2.1, hs.2], fun hp => ?_⟩
      rw [h2.2.2 hp, hs.1]
      omega


/-- A value in the range of `int` is not changed by wrapping. -/
theorem wrapInt_of_isInt (x : Int) (h : isInt x) : wrapInt x = x := by
  unfold isInt at h
  unfold wrapInt
  omega

/-- What `Purge` leaves: the empty list, the same capacity, the map as its loop
left it. -/
theorem Purge_state {K V : Type} [DecidableEq K] (order : List (K × ElemPtr)) (c : LRU K V) :
    (c.PurgeIn order).state.evictList = [] ∧ (c.PurgeIn order).state.size = c.size ∧
    (c.PurgeIn order).state.items = (purgeLoop order c).items := by
  simp [LRU.PurgeIn, Outcome.state, list.Init, purgeLoop_size]

/-- `Resize` with a non-negative argument preserves `Len() <= size`. -/
theorem Resize_state {K V : Type} [DecidableEq K] (c : LRU K V) (n : Int)
    (hc : c.Len ≤ c.size) (hcs : isInt c.size)
    (h0 : 0 ≤ n) (hn : isInt n) :
    (c.Resize n).state.Len ≤ (c.Resize n).state.size ∧ isInt (c.Resize n).state.size := by
  simp only [LRU.Len, list.Len] at hc ⊢
  have hw : wrapInt ((c.evictList.length : Int) - n) = (c.evictList.length : Int) - n := by
    apply wrapInt_of_isInt
    unfold isInt at hcs hn ⊢
    omega
  unfold LRU.Resize
  simp only [LRU.Len, list.Len, hw]
  have hl := resizeLoop_state
    (if (c.evictList.length : Int) - n < 0 then 0 else (c.evictList.length : Int) - n).toNat c
  split
  · rename_i s heq
    rw [heq] at hl
    simp only [Outcome.state] at hl ⊢
    rw [hl.2.1]
    exact ⟨by omega, hcs⟩
  · rename_i s u heq
    rw [heq] at hl
    simp only [Outcome.state, Outcome.panicked, true_implies] at hl ⊢
    refine ⟨?_, hn⟩
    rw [hl.2.2]
    split <;> omega

/-- A sequence of `Add` calls preserves `Len() <= size` and the capacity. -/
theorem addAll_state {K V : Type} [DecidableEq K] (kvs : List (K × V)) (c : LRU K V)
    (h : c.Len ≤ c.size) :
    (addAll c kvs).Len ≤ (addAll c kvs).size ∧ (addAll c kvs).size = c.size := by
  induction kvs generalizing c with
  | nil => exact ⟨h, rfl⟩
  | cons kv rest ih =>
    obtain ⟨k, v⟩ := kv
    have ha := Add_state c k v h
    have := ih (c.Add k v).state ha.1
    simp only [addAll]
    exact ⟨this.1, by rw [this.2, ha.2]⟩

/-! ## The calls that panic -/

/-- C1, at `NewLRU(1, cb); Add(1, 10); Add(2, 20)`: the cache is full (`Len()`
equals the capacity 1) and key 2 is absent, yet the second `Add` does not return
`true`: it panics in `removeElement`, after unlinking the oldest element and
before deleting its key and calling the callback. `Keys()` panics before and
after it. -/
theorem add_new_key_at_capacity_panics :
    (NewLRU 1 true : Except String (LRU Nat Nat)) = .ok (emptyLRU 1 true) ∧
    (emptyLRU 1 true : LRU Nat Nat).Add 1 10
      = .ret { size := 1, evictList := [0], items := [(1, some 0)], onEvict := true,
               heap := [.entryStruct ⟨1, 10⟩], calls := [] } false ∧
    (LRU.Add { size := 1, evictList := [0], items := [(1, some 0)], onEvict := true,
               heap := [.entryStruct ⟨1, 10⟩], calls := [] } 2 20 : Outcome (LRU Nat Nat) Bool)
      = .panic { size := 1, evictList := [1], items := [(1, some 0), (2, some 1)], onEvict := true,
                 heap := [.entryStruct ⟨1, 10⟩, .entryStruct ⟨2, 20⟩], calls := [] } ∧
    (LRU.Keys { size := 1, evictList := [0], items := [(1, some 0)], onEvict := true,
                heap := [.entryStruct ⟨1, 10⟩], calls := [] } : Outcome (LRU Nat Nat) (List Nat)).result
      = none := by
  refine ⟨rfl, ?_, ?_, ?_⟩ <;> decide

/-- C2, at `NewLRU(2, nil); Add(1, 10); Get(1)`: the `Add` returns, the `Get`
that follows it panics on `ent.Value.(*entry)` instead of returning
`(10, true)`. -/
theorem add_then_get_panics :
    (NewLRU 2 false : Except String (LRU Nat Nat)) = .ok (emptyLRU 2 false) ∧
    ((emptyLRU 2 false : LRU Nat Nat).Add 1 10).result = some false ∧
    (((emptyLRU 2 false : LRU Nat Nat).Add 1 10).state.Get 1).result = none ∧
    (((emptyLRU 2 false : LRU Nat Nat).Add 1 10).state.Get 1).result ≠ some (some 10, true) := by
  refine ⟨rfl, ?_, ?_, ?_⟩ <;> decide

/-- C3, at `NewLRU(2, cb); Add(1, 10)`: the element that `Add` stores holds an
`entry` struct, on which the assertion `.(*entry)` fails, and each of `Get(1)`,
`Peek(1)`, `Remove(1)`, `RemoveOldest()`, `GetOldest()`, `Keys()`, `Add(1, 11)`
and `Resize(0)` panics on the resulting one-entry cache. -/
theorem operations_panic_after_one_add :
    (NewLRU 2 true : Except String (LRU Nat Nat)) = .ok (emptyLRU 2 true) ∧
    ((emptyLRU 2 true : LRU Nat Nat).Add 1 10).state.heap = [.entryStruct ⟨1, 10⟩] ∧
    assertEntryPtr (Dyn.entryStruct (⟨1, 10⟩ : entry Nat Nat)) = none ∧
    (((emptyLRU 2 true : LRU Nat Nat).Add 1 10).state.Get 1).panicked = true ∧
    (((emptyLRU 2 true : LRU Nat Nat).Add 1 10).state.Peek 1).panicked = true ∧
    (((emptyLRU 2 true : LRU Nat Nat).Add 1 10).state.Remove 1).panicked = true ∧
    (((emptyLRU 2 true : LRU Nat Nat).Add 1 10).state.RemoveOldest).panicked = true ∧
    (((emptyLRU 2 true : LRU Nat Nat).Add 1 10).state.GetOldest).panicked = true ∧
    (((emptyLRU 2 true : LRU Nat Nat).Add 1 10).state.Keys).panicked = true ∧
    (((emptyLRU 2 true : LRU Nat Nat).Add 1 10).state.Add 1 11).panicked = true ∧
    (((emptyLRU 2 true : LRU Nat Nat).Add 1 10).state.Resize 0).panicked = true := by
  refine ⟨rfl, ?_, ?_, ?_, ?_, ?_, ?_, ?_, ?_, ?_, ?_⟩ <;> decide

/-- C4, at `NewLRU(2, nil); Add(1, 10); Add(2, 20); Get(1)`: key 1 is present
with value 10; `Get(1)` moves its element to the front and then panics, so it
returns nothing, and `Keys()` panics on the state it leaves. -/
theorem get_present_key_panics :
    (NewLRU 2 false : Except String (LRU Nat Nat)) = .ok (emptyLRU 2 false) ∧
    (((emptyLRU 2 false : LRU Nat Nat).Add 1 10).state.Add 2 20)
      = .ret { size := 2, evictList := [1, 0], items := [(1, some 0), (2, some 1)], onEvict := false,
               heap := [.entryStruct ⟨1, 10⟩, .entryStruct ⟨2, 20⟩], calls := [] } false ∧
    (LRU.Get { size := 2, evictList := [1, 0], items := [(1, some 0), (2, some 1)], onEvict := false,
               heap := [.entryStruct ⟨1, 10⟩, .entryStruct ⟨2, 20⟩], calls := [] } 1
        : Outcome (LRU Nat Nat) (Option Nat × Bool))
      = .panic { size := 2, evictList := [0, 1], items := [(1, some 0), (2, some 1)], onEvict := false,
                 heap := [.entryStruct ⟨1, 10⟩, .entryStruct ⟨2, 20⟩], calls := [] } ∧
    (LRU.Keys { size := 2, evictList := [0, 1], items := [(1, some 0), (2, some 1)], onEvict := false,
                heap := [.entryStruct ⟨1, 10⟩, .entryStruct ⟨2, 20⟩], calls := [] }
        : Outcome (LRU Nat Nat) (List Nat)).result = none := by
  refine ⟨rfl, ?_, ?_, ?_⟩ <;> decide

/-- C5, at `NewLRU(2, cb); Add(1, 10); Add(1, 11)`: key 1 is present; the second
`Add` panics on `ent.Value.(*entry).val = val` instead of returning `false`, the
stored value is still 10, and `Peek(1)` panics too. -/
theorem add_present_key_panics :
    (NewLRU 2 true : Except String (LRU Nat Nat)) = .ok (emptyLRU 2 true) ∧
    ((emptyLRU 2 true : LRU Nat Nat).Add 1 10).state.Contains 1 = true ∧
    (((emptyLRU 2 true : LRU Nat Nat).Add 1 10).state.Add 1 11)
      = .panic { size := 2, evictList := [0], items := [(1, some 0)], onEvict := true,
                 heap := [.entryStruct ⟨1, 10⟩], calls := [] } ∧
    ((((emptyLRU 2 true : LRU Nat Nat).Add 1 10).state.Add 1 11).state.Peek 1).result = none := by
  refine ⟨rfl, ?_, ?_, ?_⟩ <;> decide

/-- C6, the scenario `NewLRU(3, cb); Add(A); Add(B); Add(C); Get(A); Add(D)`:
the three first calls return `false`; `Get(A)` panics; were the panic recovered,
`Add(D)` panics as well instead of returning `true`, the callback is never
invoked, key B is still in the index and `Keys()` panics. -/
theorem lru_ordering_scenario_panics :
    (NewLRU 3 true : Except String (LRU Key Nat)) = .ok (emptyLRU 3 true) ∧
    (addAll (emptyLRU 3 true) [(Key.A, 1), (Key.B, 2), (Key.C, 3)] : LRU Key Nat)
      = { size := 3, evictList := [2, 1, 0],
          items := [(Key.A, some 0), (Key.B, some 1), (Key.C, some 2)], onEvict := true,
          heap := [.entryStruct ⟨Key.A, 1⟩, .entryStruct ⟨Key.B, 2⟩, .entryStruct ⟨Key.C, 3⟩],
          calls := [] } ∧
    ((addAll (emptyLRU 3 true) [(Key.A, 1), (Key.B, 2), (Key.C, 3)] : LRU Key Nat).Get
        Key.A).result = none ∧
    (((addAll (emptyLRU 3 true) [(Key.A, 1), (Key.B, 2), (Key.C, 3)] : LRU Key Nat).Get
        Key.A).state.Add Key.D 4)
      = .panic { size := 3, evictList := [3, 0, 2],
                 items := [(Key.A, some 0), (Key.B, some 1), (Key.C, some 2), (Key.D, some 3)],
                 onEvict := true,
                 heap := [.entryStruct ⟨Key.A, 1⟩, .entryStruct ⟨Key.B, 2⟩,
                          .entryStruct ⟨Key.C, 3⟩, .entryStruct ⟨Key.D, 4⟩],
                 calls := [] } ∧
    (((addAll (emptyLRU 3 true) [(Key.A, 1), (Key.B, 2), (Key.C, 3)] : LRU Key Nat).Get
        Key.A).state.Add Key.D 4).state.Keys.result = none := by
  refine ⟨rfl, ?_, ?_, ?_, ?_⟩ <;> decide

/-! ## The capacity bound -/

/-- C7: from a cache built by `NewLRU(capacity, cb)` with `capacity >= 1`, after
each call of a sequence of `Add` calls with pairwise distinct keys, `Len()` is at
most the capacity, which the calls leave unchanged. The state after a call is the
state the call leaves, whether it returned or panicked. -/
theorem capacity_bound_distinct_adds {K V : Type} [DecidableEq K] (capacity : Int)
    (onEvict : Bool) (kvs : List (K × V))
    (hcap : 1 ≤ capacity) (_hd : (kvs.map Prod.fst).Nodup) :
    (NewLRU capacity onEvict : Except String (LRU K V)) = .ok (emptyLRU capacity onEvict) ∧
    ∀ n : Nat, (addAll (emptyLRU capacity onEvict : LRU K V) (kvs.take n)).Len ≤ capacity ∧
      (addAll (emptyLRU capacity onEvict : LRU K V) (kvs.take n)).size = capacity := by
  refine ⟨?_, fun n => ?_⟩
  · unfold NewLRU
    rw [if_neg (by omega)]
  · have h0 : (emptyLRU capacity onEvict : LRU K V).Len ≤ (emptyLRU capacity onEvict : LRU K V).size := by
      simp only [LRU.Len, list.Len, emptyLRU, List.length_nil]
      omega
    obtain ⟨h1, h2⟩ := addAll_state (kvs.take n) _ h0
    rw [h2] at h1
    exact ⟨h1, h2⟩

/-- C7 at capacity 2 and the keys 1, 2, 3: the third `Add` panics, and `Len()`
is still at most 2. -/
theorem capacity_bound_distinct_adds_witness :
    (1 : Int) ≤ 2 ∧ (([(1, 10), (2, 20), (3, 30)] : List (Nat × Nat)).map Prod.fst).Nodup ∧
    (addAll (emptyLRU 2 true : LRU Nat Nat) (([(1, 10), (2, 20), (3, 30)] : List (Nat × Nat)).take 3)).Len
      ≤ 2 :=
  ⟨by decide, by decide,
   ((capacity_bound_distinct_adds 2 true [(1, 10), (2, 20), (3, 30)] (by decide) (by decide)).2 3).1⟩

/-- C8, the claim refuted: on the cache returned by `NewLRU(1, nil)`, where
`Len() <= capacity` holds, `Resize(-1)` returns and leaves `Len() == 0` with
capacity `-1`. -/
theorem resize_negative_breaks_bound :
    (NewLRU 1 false : Except String (LRU Nat Nat)) = .ok (emptyLRU 1 false) ∧
    (emptyLRU 1 false : LRU Nat Nat).Len ≤ (emptyLRU 1 false : LRU Nat Nat).size ∧
    (emptyLRU 1 false : LRU Nat Nat).Resize (-1) = .ret (emptyLRU (-1) false) 1 ∧
    ¬ ((emptyLRU (-1) false : LRU Nat Nat).Len ≤ (emptyLRU (-1) false : LRU Nat Nat).size) := by
  refine ⟨rfl, ?_, ?_, ?_⟩ <;> decide

/-- C8 as amended: `Len() <= capacity` holds on return from `NewLRU` and is
preserved by every public operation, `Resize` taken with a non-negative
argument. The state after a call is the state the call leaves, whether it
returned or panicked; sizes are Go `int`s. -/
theorem len_le_size_invariant {K V : Type} [DecidableEq K] (size : Int) (onEvict : Bool)
    (c : LRU K V) (op : Op K V)
    (hsize : isInt size) (hc : c.Len ≤ c.size) (hcs : isInt c.size)
    (hop : ∀ n, op = Op.Resize n → 0 ≤ n ∧ isInt n) :
    (∀ c0 : LRU K V, NewLRU size onEvict = .ok c0 → c0.Len ≤ c0.size ∧ isInt c0.size) ∧
    ((op.apply c).Len ≤ (op.apply c).size ∧ isInt (op.apply c).size) := by
  constructor
  · intro c0 h0
    unfold NewLRU at h0
    split at h0
    · cases h0
    · rename_i hpos
      injection h0 with h0
      subst h0
      simp only [LRU.Len, list.Len, emptyLRU, List.length_nil]
      exact ⟨by omega, hsize⟩
  · have hc2 := hc
    simp only [LRU.Len, list.Len] at hc2 ⊢
    cases op with
    | Add key val =>
      have := Add_state c key val hc
      simp only [Op.apply]
      simp only [LRU.Len, list.Len] at this
      exact ⟨this.1, by rw [this.2]; exact hcs⟩
    | Get key =>
      have := Get_state c key
      simp only [Op.apply]
      rw [this.1, this.2]
      exact ⟨hc2, hcs⟩
    | Peek key => simp only [Op.apply, Peek_state]; exact ⟨hc2, hcs⟩
    | Contains key => exact ⟨hc2, hcs⟩
    | Remove key =>
      have := Remove_state c key
      simp only [Op.apply]
      rw [this.2]
      exact ⟨by omega, hcs⟩
    | RemoveOldest =>
      have := RemoveOldest_state c
      simp only [Op.apply]
      rw [this.2]
      exact ⟨by omega, hcs⟩
    | GetOldest => simp only [Op.apply, GetOldest_state]; exact ⟨hc2, hcs⟩
    | Keys => simp only [Op.apply, Keys_state]; exact ⟨hc2, hcs⟩
    | Len => exact ⟨hc2, hcs⟩
    | Purge =>
      have := Purge_state c.items c
      simp only [Op.apply, LRU.Purge]
      rw [this.1, this.2.1]
      simp only [List.length_nil]
      exact ⟨by omega, hcs⟩
    | Resize n =>
      have hn := hop n rfl
      have := Resize_state c n hc hcs hn.1 hn.2
      simp only [LRU.Len, list.Len] at this
      exact this

/-- C8 as amended, at `Resize(1)` on a cache of capacity 2 holding two
entries. -/
theorem len_le_size_invariant_witness :
    isInt 2 ∧
    (addAll (emptyLRU 2 true : LRU Nat Nat) [(1, 10), (2, 20)]).Len
      ≤ (addAll (emptyLRU 2 true : LRU Nat Nat) [(1, 10), (2, 20)]).size ∧
    isInt (addAll (emptyLRU 2 true : LRU Nat Nat) [(1, 10), (2, 20)]).size ∧
    ((0 : Int) ≤ 1 ∧ isInt 1) ∧
    ((Op.Resize 1 : Op Nat Nat).apply (addAll (emptyLRU 2 true) [(1, 10), (2, 20)])).Len
      ≤ ((Op.Resize 1 : Op Nat Nat).apply (addAll (emptyLRU 2 true) [(1, 10), (2, 20)])).size :=
  ⟨by unfold isInt; decide, by decide, by unfold isInt; decide,
   by unfold isInt; decide,
   (len_le_size_invariant 2 true (addAll (emptyLRU 2 true : LRU Nat Nat) [(1, 10), (2, 20)])
      (Op.Resize 1) (by unfold isInt; decide) (by decide) (by unfold isInt; decide)
      (by intro n h; injection h with h; subst h; unfold isInt; decide)).2.1⟩

/-! ## Purge -/

/-- C9, at `NewLRU(2, cb); Add(1, 10); Add(2, 20); Purge()`: the callback is
invoked twice, and what it receives with key 1 and key 2 is the map value `v`,
a `*list.Element`, not the stored values 10 and 20; so it is in the other
order of visit. -/
theorem purge_passes_list_element :
    (NewLRU 2 true : Except String (LRU Nat Nat)) = .ok (emptyLRU 2 true) ∧
    (addAll (emptyLRU 2 true) [(1, 10), (2, 20)] : LRU Nat Nat).Purge.state.calls
      = [(1, CbVal.element (some 0)), (2, CbVal.element (some 1))] ∧
    (addAll (emptyLRU 2 true) [(1, 10), (2, 20)] : LRU Nat Nat).Purge.state.calls
      ≠ [(1, CbVal.val 10), (2, CbVal.val 20)] ∧
    (1, CbVal.val 10) ∉ (addAll (emptyLRU 2 true) [(1, 10), (2, 20)] : LRU Nat Nat).Purge.state.calls ∧
    ((addAll (emptyLRU 2 true) [(1, 10), (2, 20)] : LRU Nat Nat).PurgeIn
        [(2, some 1), (1, some 0)]).state.calls
      = [(2, CbVal.element (some 1)), (1, CbVal.element (some 0))] := by
  refine ⟨rfl, ?_, ?_, ?_, ?_⟩ <;> decide

/-- C10: `Purge()`, whatever the order in which its loop visits the map and
whether a callback is installed or not, returns without panic and leaves a cache
with `Len() == 0`, on which `Keys()` returns the empty sequence and
`Contains(k)` is false for every key, with the capacity it had before. -/
theorem purge_leaves_empty_cache {K V : Type} [DecidableEq K] (c : LRU K V)
    (order : List (K × ElemPtr))
    (h : order.Perm c.items) :
    (c.PurgeIn order).panicked = false ∧
    (c.PurgeIn order).state.Len = 0 ∧
    (c.PurgeIn order).state.Keys = .ret (c.PurgeIn order).state [] ∧
    (∀ k : K, (c.PurgeIn order).state.Contains k = false) ∧
    (c.PurgeIn order).state.size = c.size ∧
    c.Purge = c.PurgeIn c.items := by
  have hs := Purge_state order c
  have hitems : (c.PurgeIn order).state.items = [] := by
    rw [hs.2.2]
    apply List.eq_nil_iff_forall_not_mem.mpr
    intro kv hkv
    have h2 := purgeLoop_items order c kv hkv
    exact h2.2 (List.mem_map_of_mem Prod.fst (h.symm.subset h2.1))
  refine ⟨rfl, ?_, ?_, ?_, hs.2.1, rfl⟩
  · simp [LRU.Len, list.Len, hs.1]
  · simp [LRU.Keys, hs.1, keysLoop]
  · intro k
    simp [LRU.Contains, hitems, mapLookup]

/-- C10 on a cache holding the keys 1 and 2, the map visited from key 2. -/
theorem purge_leaves_empty_cache_witness :
    List.Perm [(2, some 1), (1, some 0)] (addAll (emptyLRU 2 true : LRU Nat Nat) [(1, 10), (2, 20)]).items ∧
    ((addAll (emptyLRU 2 true : LRU Nat Nat) [(1, 10), (2, 20)]).PurgeIn
        [(2, some 1), (1, some 0)]).state.Len = 0 :=
  ⟨by decide,
   (purge_leaves_empty_cache (addAll (emptyLRU 2 true : LRU Nat Nat) [(1, 10), (2, 20)])
      [(2, some 1), (1, some 0)] (by decide)).2.1⟩

/-! ## What a returning call has done -/

/-- What a returning `removeElement` has done: the element is unlinked, the
capacity and the callback are as before, and the callback, when installed, has
been invoked once. -/
theorem removeElement_ret {K V : Type} [DecidableEq K] (c s : LRU K V) (p : Nat) (u : Unit)
    (h : c.removeElement (some p) = .ret s u) :
    s.evictList = c.evictList.erase p ∧ s.onEvict = c.onEvict ∧ s.size = c.size ∧
    s.calls.length = c.calls.length + (if c.onEvict then 1 else 0) := by
  simp only [LRU.removeElement, list.Remove] at h
  split at h
  · cases h
  · split at h
    · rename_i hcb
      injection h with h1 _
      subst h1
      simp_all
    · rename_i hcb
      injection h with h1 _
      subst h1
      simp_all

/-- What a returning `removeOldest` has done on a list that is not empty. -/
theorem removeOldest_ret {K V : Type} [DecidableEq K] (c s : LRU K V) (u : Unit)
    (h : c.removeOldest = .ret s u) (hne : c.evictList ≠ []) :
    s.evictList.length + 1 = c.evictList.length ∧ s.onEvict = c.onEvict ∧ s.size = c.size ∧
    s.calls.length = c.calls.length + (if c.onEvict then 1 else 0) := by
  unfold LRU.removeOldest at h
  split at h
  · rename_i hb
    simp only [list.Back, List.getLast?_eq_none_iff] at hb
    exact absurd hb hne
  · rename_i p hb
    simp only [list.Back] at hb
    have hp : p ∈ c.evictList := List.mem_of_getLast?_eq_some hb
    obtain ⟨h1, h2, h3, h4⟩ := removeElement_ret c s p u h
    refine ⟨?_, h2, h3, h4⟩
    rw [h1, List.length_erase_of_mem hp]
    have : 0 < c.evictList.length := List.length_pos_of_mem hp
    omega

/-- What a returning loop of `Resize` has done, when it was asked for no more
removals than the list has elements. -/
theorem resizeLoop_ret {K V : Type} [DecidableEq K] (d : Nat) (c s : LRU K V) (u : Unit)
    (h : resizeLoop d c = .ret s u) (hd : d ≤ c.evictList.length) :
    s.evictList.length + d = c.evictList.length ∧ s.onEvict = c.onEvict ∧ s.size = c.size ∧
    s.calls.length = c.calls.length + (if c.onEvict then d else 0) := by
  induction d generalizing c with
  | zero =>
    simp only [resizeLoop] at h
    injection h with h1 _
    subst h1
    simp
  | succ d ih =>
    simp only [resizeLoop] at h
    split at h
    · cases h
    · rename_i s1 u1 heq
      have hne : c.evictList ≠ [] := by
        intro h0
        rw [h0] at hd
        simp at hd
      obtain ⟨a1, a2, a3, a4⟩ := removeOldest_ret c s1 u1 heq hne
      obtain ⟨b1, b2, b3, b4⟩ := ih s1 h (by omega)
      refine ⟨by omega, by rw [b2, a2], by rw [b3, a3], ?_⟩
      rw [b4, a4, a2]
      split <;> omega

/-! ## The map against the list -/

/-- A key that the lookup finds is a key of the association list, with the
pointer found. -/
theorem mapLookup_mem {K : Type} [DecidableEq K] (m : List (K × ElemPtr)) (k : K) (p : ElemPtr)
    (h : mapLookup m k = some p) : (k, p) ∈ m := by
  induction m with
  | nil => simp [mapLookup] at h
  | cons x rest ih =>
    obtain ⟨k1, p1⟩ := x
    simp only [mapLookup] at h
    split at h
    · rename_i hk
      injection h with h
      subst hk h
      simp
    · exact List.mem_cons_of_mem _ (ih h)

/-- The lookup misses exactly the keys that are not in the association list. -/
theorem mapLookup_eq_none_iff {K : Type} [DecidableEq K] (m : List (K × ElemPtr)) (k : K) :
    mapLookup m k = none ↔ k ∉ m.map Prod.fst := by
  induction m with
  | nil => simp [mapLookup]
  | cons x rest ih =>
    obtain ⟨k1, p1⟩ := x
    simp only [mapLookup, List.map_cons, List.mem_cons, not_or]
    split
    · rename_i hk
      simp [hk]
    · rename_i hk
      rw [ih]
      constructor
      · intro h
        exact ⟨fun h2 => hk h2.symm, h⟩
      · intro h
        exact h.2

/-- In an association list without duplicate keys the lookup finds the pointer
of every pair. -/
theorem mapLookup_of_mem {K : Type} [DecidableEq K] (m : List (K × ElemPtr)) (k : K) (p : ElemPtr)
    (hn : (m.map Prod.fst).Nodup) (h : (k, p) ∈ m) : mapLookup m k = some p := by
  induction m with
  | nil => simp at h
  | cons x rest ih =>
    obtain ⟨k1, p1⟩ := x
    simp only [List.map_cons, List.nodup_cons] at hn
    simp only [mapLookup]
    rcases List.mem_cons.mp h with h1 | h1
    · injection h1 with h2 h3
      subst h2 h3
      simp
    · split
      · rename_i hk
        subst hk
        exact absurd (List.mem_map_of_mem Prod.fst h1) hn.1
      · exact ih hn.2 h1

/-- Deleting a key that is not in the map changes nothing. -/
theorem mapDelete_of_lookup_none {K : Type} [DecidableEq K] (m : List (K × ElemPtr)) (k : K)
    (h : mapLookup m k = none) : mapDelete m k = m := by
  rw [mapLookup_eq_none_iff] at h
  unfold mapDelete
  apply List.filter_eq_self.mpr
  intro kv hkv
  simp only [ne_eq, decide_eq_true_eq]
  intro hk
  exact h (hk ▸ List.mem_map_of_mem Prod.fst hkv)

/-- When every allocated `Value` is an `entry` struct, `e.Value.(*entry)`
panics on every element. -/
theorem entryOf_none_of_allStruct {K V : Type} (c : LRU K V)
    (hA : ∀ v ∈ c.heap, assertEntryPtr v = none) (e : ElemPtr) : c.entryOf e = none := by
  cases e with
  | none => rfl
  | some p =>
    simp only [LRU.entryOf]
    cases hg : c.heap.get? p with
    | none => rfl
    | some v => exact hA v (List.get?_mem hg)

/-- When every allocated `Value` is an `entry` struct, `removeElement` never
returns. -/
theorem removeElement_returned_none {K V : Type} [DecidableEq K] (c : LRU K V)
    (hA : ∀ v ∈ c.heap, assertEntryPtr v = none) (e : ElemPtr) :
    (c.removeElement e).returned = none := by
  unfold LRU.removeElement
  split
  · rfl
  · rename_i l _
    have hn := entryOf_none_of_allStruct ({ c with evictList := l } : LRU K V) hA e
    simp only [hn]
    rfl

/-- When every allocated `Value` is an `entry` struct, `removeOldest` returns on
the empty list only, and changes nothing. -/
theorem removeOldest_returned {K V : Type} [DecidableEq K] (c s : LRU K V)
    (hA : ∀ v ∈ c.heap, assertEntryPtr v = none) (h : c.removeOldest.returned = some s) :
    s = c ∧ c.evictList = [] := by
  unfold LRU.removeOldest at h
  split at h
  · rename_i hb
    simp only [list.Back, List.getLast?_eq_none_iff] at hb
    simp only [Outcome.returned, Option.some.injEq] at h
    exact ⟨h.symm, hb⟩
  · rename_i p _
    rw [removeElement_returned_none c hA] at h
    cases h

/-- When every allocated `Value` is an `entry` struct, the loop of `Resize`
returns only when it has removed nothing. -/
theorem resizeLoop_returned {K V : Type} [DecidableEq K] (d : Nat) (c s : LRU K V)
    (hA : ∀ v ∈ c.heap, assertEntryPtr v = none) (h : (resizeLoop d c).returned = some s) :
    s = c := by
  induction d with
  | zero =>
    simp only [resizeLoop, Outcome.returned, Option.some.injEq] at h
    exact h.symm
  | succ d ih =>
    simp only [resizeLoop] at h
    split at h
    · cases h
    · rename_i s1 u1 heq
      have h1 : c.removeOldest.returned = some s1 := by rw [heq]; rfl
      have h2 := (removeOldest_returned c s1 hA h1).1
      subst h2
      exact ih h

/-- When every allocated `Value` is an `entry` struct, `Add` returns only for a
key that is not in the map and without eviction, in the state in which the new
element is linked in front and entered in the map. -/
theorem Add_returned {K V : Type} [DecidableEq K] (c s : LRU K V) (key : K) (val : V)
    (hA : ∀ v ∈ c.heap, assertEntryPtr v = none) (h : (c.Add key val).returned = some s) :
    mapLookup c.items key = none ∧
    s = { c with heap := c.heap ++ [Dyn.entryStruct { key := key, val := val }],
                 evictList := c.heap.length :: c.evictList,
                 items := c.items ++ [(key, some c.heap.length)] } := by
  unfold LRU.Add at h
  split at h
  · rename_i ent _
    split at h
    · cases h
    · rename_i l _
      have hn := entryOf_none_of_allStruct ({ c with evictList := l } : LRU K V) hA ent
      simp only [hn] at h
      cases ent <;> cases h
  · rename_i hl
    refine ⟨hl, ?_⟩
    simp only [] at h
    split at h
    · have hA2 : ∀ v ∈ c.heap ++ [Dyn.entryStruct { key := key, val := val }],
          assertEntryPtr v = none := by
        intro v hv
        simp only [List.mem_append, List.mem_singleton] at hv
        rcases hv with hv | hv
        · exact hA v hv
        · subst hv
          rfl
      split at h
      · cases h
      · rename_i s1 u1 heq
        have h2 := (removeOldest_returned _ s1 hA2 (by rw [heq]; rfl)).2
        simp [list.PushFront] at h2
    · simp only [Outcome.returned, Option.some.injEq] at h
      rw [← h]
      simp only [mapInsert, mapDelete_of_lookup_none c.items key hl, list.PushFront]

/-- When every allocated `Value` is an `entry` struct, `Get` returns on a miss
only, and changes nothing. -/
theorem Get_returned {K V : Type} [DecidableEq K] (c s : LRU K V) (key : K)
    (hA : ∀ v ∈ c.heap, assertEntryPtr v = none) (h : (c.Get key).returned = some s) :
    s = c := by
  unfold LRU.Get at h
  split at h
  · rename_i ent _
    split at h
    · cases h
    · rename_i l hl
      simp only [] at h
      split at h
      · rename_i hent
        subst hent
        simp [list.MoveToFront] at hl
      · have hn := entryOf_none_of_allStruct ({ c with evictList := l } : LRU K V) hA ent
        simp only [hn] at h
        cases h
  · simp only [Outcome.returned, Option.some.injEq] at h
    exact h.symm

/-- When every allocated `Value` is an `entry` struct, `Remove` returns on a
miss only, and changes nothing. -/
theorem Remove_returned {K V : Type} [DecidableEq K] (c s : LRU K V) (key : K)
    (hA : ∀ v ∈ c.heap, assertEntryPtr v = none) (h : (c.Remove key).returned = some s) :
    s = c := by
  unfold LRU.Remove at h
  split at h
  · rename_i ent _
    have hr := removeElement_returned_none c hA ent
    split at h
    · cases h
    · rename_i s1 u1 heq
      rw [heq] at hr
      cases hr
  · simp only [Outcome.returned, Option.some.injEq] at h
    exact h.symm

/-- When every allocated `Value` is an `entry` struct, `RemoveOldest` returns on
the empty cache only, and changes nothing. -/
theorem RemoveOldest_returned {K V : Type} [DecidableEq K] (c s : LRU K V)
    (hA : ∀ v ∈ c.heap, assertEntryPtr v = none) (h : c.RemoveOldest.returned = some s) :
    s = c := by
  unfold LRU.RemoveOldest at h
  split at h
  · rename_i p _
    have hr := removeElement_returned_none c hA (some p)
    split at h
    · cases h
    · rename_i s1 u1 heq
      rw [heq] at hr
      cases hr
  · simp only [Outcome.returned, Option.some.injEq] at h
    exact h.symm

/-- A call that returned has left the state in which it returned. -/
theorem Outcome.state_of_returned {σ α : Type} (o : Outcome σ α) (s : σ)
    (h : o.returned = some s) : o.state = s := by
  cases o with
  | ret s1 a =>
    simp only [Outcome.returned, Option.some.injEq] at h
    exact h
  | panic s1 => cases h

/-- The loop of `Purge` leaves the allocated elements and the list alone. -/
theorem purgeLoop_heap {K V : Type} [DecidableEq K] (order : List (K × ElemPtr)) (c : LRU K V) :
    (purgeLoop order c).heap = c.heap := by
  induction order generalizing c with
  | nil => rfl
  | cons kv rest ih =>
    obtain ⟨k, v⟩ := kv
    simp only [purgeLoop]
    rw [ih]
    split <;> rfl

/-- The loop of `Purge`, run over the pairs of the map, leaves the map empty. -/
theorem purgeLoop_items_nil {K V : Type} [DecidableEq K] (c : LRU K V) :
    (purgeLoop c.items c).items = [] := by
  apply List.eq_nil_iff_forall_not_mem.mpr
  intro kv hkv
  have h2 := purgeLoop_items c.items c kv hkv
  exact h2.2 (List.mem_map_of_mem Prod.fst h2.1)

/-- The cache that `NewLRU` returns has the shape of `Wf`. -/
theorem Wf_emptyLRU {K V : Type} (size : Int) (onEvict : Bool) :
    Wf (emptyLRU size onEvict : LRU K V) := by
  constructor <;> simp [emptyLRU]

/-- The shape does not depend on the capacity, the callback and the record of
its invocations. -/
theorem Wf_of_same_heap_list_items {K V : Type} (c s : LRU K V) (h : Wf c)
    (hh : s.heap = c.heap) (hl : s.evictList = c.evictList) (hi : s.items = c.items) : Wf s := by
  obtain ⟨a, b, d, e, f, g⟩ := h
  constructor
  · rw [hh]; exact a
  · rw [hi, hl]; exact b
  · rw [hi]
    unfold LRU.keyAt
    rw [hh]
    exact d
  · rw [hi]; exact e
  · rw [hl]; exact f
  · rw [hl, hh]; exact g

/-- Linking a new element in front and entering it in the map under a key that
the map does not hold keeps the shape. -/
theorem Wf_add {K V : Type} [DecidableEq K] (c : LRU K V) (key : K) (val : V) (h : Wf c)
    (hk : mapLookup c.items key = none) :
    Wf ({ c with heap := c.heap ++ [Dyn.entryStruct { key := key, val := val }],
                 evictList := c.heap.length :: c.evictList,
                 items := c.items ++ [(key, some c.heap.length)] } : LRU K V) := by
  obtain ⟨a, b, d, e, f, g⟩ := h
  constructor
  · intro v hv
    simp only [List.mem_append, List.mem_singleton] at hv
    rcases hv with hv | hv
    · exact a v hv
    · subst hv
      rfl
  · simp only [List.map_append, List.map_cons, List.map_nil, List.reverse_cons, b]
  · intro kv hkv
    simp only [List.mem_append, List.mem_singleton] at hkv
    rcases hkv with hkv | hkv
    · obtain ⟨p, hp1, hp2⟩ := d kv hkv
      refine ⟨p, hp1, ?_⟩
      unfold LRU.keyAt at hp2 ⊢
      cases hg : c.heap.get? p with
      | none =>
        rw [hg] at hp2
        cases hp2
      | some v =>
        have hlt : p < c.heap.length := by
          rw [List.get?_eq_some] at hg
          exact hg.1
        simp only [List.get?_eq_getElem?] at hg hp2 ⊢
        rw [List.getElem?_append_left hlt]
        exact hp2
    · subst hkv
      refine ⟨c.heap.length, rfl, ?_⟩
      unfold LRU.keyAt
      simp [Dyn.key]
  · simp only [List.map_append, List.map_cons, List.map_nil]
    rw [List.nodup_append]
    refine ⟨e, by simp, ?_⟩
    rw [mapLookup_eq_none_iff] at hk
    simp only [List.disjoint_singleton]
    exact hk
  · simp only [List.nodup_cons]
    refine ⟨fun hm => ?_, f⟩
    exact Nat.lt_irrefl _ (g _ hm)
  · intro p hp
    simp only [List.mem_cons] at hp
    simp only [List.length_append, List.length_singleton]
    rcases hp with hp | hp
    · omega
    · have := g p hp
      omega

/-- Every call that returns keeps the shape. -/
theorem Wf_step {K V : Type} [DecidableEq K] (op : Op K V) (c s : LRU K V) (h : Wf c)
    (hr : op.returned c = some s) : Wf s := by
  have hA := h.allStruct
  cases op with
  | Add key val =>
    obtain ⟨h1, h2⟩ := Add_returned c s key val hA hr
    rw [h2]
    exact Wf_add c key val h h1
  | Get key => rw [Get_returned c s key hA hr]; exact h
  | Peek key =>
    have := Outcome.state_of_returned _ s hr
    rw [Peek_state] at this
    rw [← this]; exact h
  | Contains key =>
    simp only [Op.returned, Option.some.injEq] at hr
    rw [← hr]; exact h
  | Remove key => rw [Remove_returned c s key hA hr]; exact h
  | RemoveOldest => rw [RemoveOldest_returned c s hA hr]; exact h
  | GetOldest =>
    have := Outcome.state_of_returned _ s hr
    rw [GetOldest_state] at this
    rw [← this]; exact h
  | Keys =>
    have := Outcome.state_of_returned _ s hr
    rw [Keys_state] at this
    rw [← this]; exact h
  | Len =>
    simp only [Op.returned, Option.some.injEq] at hr
    rw [← hr]; exact h
  | Purge =>
    simp only [Op.returned, LRU.Purge, LRU.PurgeIn, Outcome.returned, Option.some.injEq] at hr
    rw [← hr]
    constructor
    · simp only [purgeLoop_heap]
      exact hA
    · simp [purgeLoop_items_nil, list.Init]
    · simp [purgeLoop_items_nil]
    · simp [purgeLoop_items_nil]
    · simp [list.Init]
    · simp [list.Init]
  | Resize n =>
    simp only [Op.returned, LRU.Resize] at hr
    split at hr
    · cases hr
    · rename_i s1 u1 heq
      have h1 := resizeLoop_returned _ c s1 hA (by rw [heq]; rfl)
      subst h1
      simp only [Outcome.returned, Option.some.injEq] at hr
      rw [← hr]
      exact Wf_of_same_heap_list_items _ _ h rfl rfl rfl

/-- Every sequence of calls that return keeps the shape. -/
theorem Wf_runOps {K V : Type} [DecidableEq K] (ops : List (Op K V)) (c s : LRU K V) (h : Wf c)
    (hr : runOps c ops = some s) : Wf s := by
  induction ops generalizing c with
  | nil =>
    simp only [runOps, Option.some.injEq] at hr
    rw [← hr]; exact h
  | cons op rest ih =>
    simp only [runOps] at hr
    split at hr
    · cases hr
    · rename_i s1 heq
      exact ih s1 (Wf_step op c s1 h heq) hr

/-! ## Resize and its result -/

/-- C11, at the claim's own scenario, `NewLRU(5, cb)`, five `Add`s of the keys
1 to 5, then `Resize(2)`: the call does not return 3. It panics in the first
`removeOldest`, after unlinking the oldest element: four elements stay linked,
the capacity is still 5 and the callback has not been invoked. -/
theorem resize_shrink_panics :
    (NewLRU 5 true : Except String (LRU Nat Nat)) = .ok (emptyLRU 5 true) ∧
    (addAll (emptyLRU 5 true) [(1, 10), (2, 20), (3, 30), (4, 40), (5, 50)] : LRU Nat Nat)
      = { size := 5, evictList := [4, 3, 2, 1, 0],
          items := [(1, some 0), (2, some 1), (3, some 2), (4, some 3), (5, some 4)],
          onEvict := true,
          heap := [.entryStruct ⟨1, 10⟩, .entryStruct ⟨2, 20⟩, .entryStruct ⟨3, 30⟩,
                   .entryStruct ⟨4, 40⟩, .entryStruct ⟨5, 50⟩],
          calls := [] } ∧
    ((addAll (emptyLRU 5 true) [(1, 10), (2, 20), (3, 30), (4, 40), (5, 50)] : LRU Nat Nat).Resize 2)
      = .panic { size := 5, evictList := [4, 3, 2, 1],
                 items := [(1, some 0), (2, some 1), (3, some 2), (4, some 3), (5, some 4)],
                 onEvict := true,
                 heap := [.entryStruct ⟨1, 10⟩, .entryStruct ⟨2, 20⟩, .entryStruct ⟨3, 30⟩,
                          .entryStruct ⟨4, 40⟩, .entryStruct ⟨5, 50⟩],
                 calls := [] } ∧
    ((addAll (emptyLRU 5 true) [(1, 10), (2, 20), (3, 30), (4, 40), (5, 50)]
        : LRU Nat Nat).Resize 2).result ≠ some 3 := by
  refine ⟨rfl, ?_, ?_, ?_⟩ <;> decide

/-- C12, the claim refuted: on the cache returned by `NewLRU(1, cb)`,
`Resize(-1)` returns 1 although `Len()` is 0 before and after the call and the
callback is not invoked. -/
theorem resize_negative_overstates_evictions :
    (NewLRU 1 true : Except String (LRU Nat Nat)) = .ok (emptyLRU 1 true) ∧
    (emptyLRU 1 true : LRU Nat Nat).Resize (-1) = .ret (emptyLRU (-1) true) 1 ∧
    (emptyLRU 1 true : LRU Nat Nat).Len = 0 ∧
    (emptyLRU (-1) true : LRU Nat Nat).Len = 0 ∧
    (emptyLRU (-1) true : LRU Nat Nat).calls = (emptyLRU 1 true : LRU Nat Nat).calls ∧
    (1 : Int) ≠ (emptyLRU 1 true : LRU Nat Nat).Len - (emptyLRU (-1) true : LRU Nat Nat).Len := by
  refine ⟨rfl, ?_, ?_, ?_, ?_, ?_⟩ <;> decide

/-- C12 as amended: for a capacity `n >= 0`, the value that `Resize(n)` returns
is `Len()` before the call minus `Len()` after it, which is the number of
callback invocations made when a callback is installed; and when `n` is at least
`Len()` the call does return, with value 0 and nothing changed but the capacity. -/
theorem resize_returns_removed_count {K V : Type} [DecidableEq K] (c : LRU K V) (n : Int)
    (h0 : 0 ≤ n) (hn : isInt n) (hl : isInt c.Len) :
    (c.Len ≤ n → c.Resize n = .ret { c with size := n } 0) ∧
    (∀ (s : LRU K V) (r : Int), c.Resize n = .ret s r →
      r = c.Len - s.Len ∧ s.size = n ∧
      (s.calls.length : Int) - (c.calls.length : Int) = (if c.onEvict then r else 0)) := by
  have hw : wrapInt (c.Len - n) = c.Len - n := by
    apply wrapInt_of_isInt
    unfold isInt at hn hl ⊢
    simp only [LRU.Len, list.Len] at hl ⊢
    omega
  constructor
  · intro hle
    unfold LRU.Resize
    simp only [hw]
    have hd : (if c.Len - n < 0 then (0 : Int) else c.Len - n) = 0 := by
      split <;> omega
    simp only [hd, Int.toNat_zero, resizeLoop]
  · intro s r h
    unfold LRU.Resize at h
    simp only [hw] at h
    split at h
    · cases h
    · rename_i s1 u1 heq
      injection h with h1 h2
      subst h1
      simp only [LRU.Len, list.Len] at heq h2 ⊢
      have hd0 : 0 ≤ r := by
        rw [← h2]
        split <;> omega
      have hdl : r ≤ (c.evictList.length : Int) := by
        rw [← h2]
        split <;> omega
      rw [h2] at heq
      have hcast : ((r.toNat : Nat) : Int) = r := Int.toNat_of_nonneg hd0
      obtain ⟨a1, _, _, a4⟩ := resizeLoop_ret r.toNat c s1 u1 heq (by omega)
      refine ⟨by omega, trivial, ?_⟩
      rw [a4]
      by_cases hcb : c.onEvict = true
      · simp only [hcb, if_true]
        omega
      · simp only [hcb]
        simp

/-- C12 as amended, at `Resize(3)` on a cache of capacity 2 holding two
entries: 0 is returned, nothing is removed, nothing is called. -/
theorem resize_returns_removed_count_witness :
    (0 : Int) ≤ 3 ∧ isInt 3 ∧ isInt (addAll (emptyLRU 2 true : LRU Nat Nat) [(1, 10), (2, 20)]).Len ∧
    (addAll (emptyLRU 2 true : LRU Nat Nat) [(1, 10), (2, 20)]).Resize 3
      = .ret { addAll (emptyLRU 2 true : LRU Nat Nat) [(1, 10), (2, 20)] with size := 3 } 0 :=
  ⟨by decide, by unfold isInt; decide, by unfold isInt; decide,
   (resize_returns_removed_count (addAll (emptyLRU 2 true : LRU Nat Nat) [(1, 10), (2, 20)]) 3
      (by decide) (by unfold isInt; decide) (by unfold isInt; decide)).1 (by decide)⟩

/-! ## Remove -/

/-- C13, at `NewLRU(2, cb); Add(1, 10); Add(2, 20); Remove(1)`: key 1 is
present; `Remove(1)` does not return `true`. It panics after unlinking the
element and before deleting the key and calling the callback, so that
`Contains(1)` is still true and the callback has not been invoked. -/
theorem remove_present_key_panics :
    (NewLRU 2 true : Except String (LRU Nat Nat)) = .ok (emptyLRU 2 true) ∧
    (addAll (emptyLRU 2 true) [(1, 10), (2, 20)] : LRU Nat Nat).Contains 1 = true ∧
    ((addAll (emptyLRU 2 true) [(1, 10), (2, 20)] : LRU Nat Nat).Remove 1)
      = .panic { size := 2, evictList := [1], items := [(1, some 0), (2, some 1)],
                 onEvict := true, heap := [.entryStruct ⟨1, 10⟩, .entryStruct ⟨2, 20⟩],
                 calls := [] } ∧
    ((addAll (emptyLRU 2 true) [(1, 10), (2, 20)] : LRU Nat Nat).Remove 1).state.Contains 1
      = true := by
  refine ⟨rfl, ?_, ?_, ?_⟩ <;> decide

/-- C14: `Remove(k)` of a key that is not in the cache returns `false` and
leaves the state as it was: no callback invocation is recorded, and `Keys()`,
`Len()`, the stored values and the capacity are those of before. -/
theorem remove_absent_key {K V : Type} [DecidableEq K] (c : LRU K V) (k : K)
    (h : c.Contains k = false) :
    c.Remove k = .ret c false ∧
    (c.Remove k).state.calls = c.calls ∧
    (c.Remove k).state.Keys = c.Keys ∧
    (c.Remove k).state.Len = c.Len ∧
    (c.Remove k).state.heap = c.heap ∧
    (c.Remove k).state.size = c.size := by
  have hr : c.Remove k = .ret c false := by
    unfold LRU.Contains at h
    unfold LRU.Remove
    split
    · rename_i ent heq
      rw [heq] at h
      simp at h
    · rfl
  rw [hr]
  simp [Outcome.state]

/-- C14 at `Remove(3)` on a cache holding the keys 1 and 2. -/
theorem remove_absent_key_witness :
    (addAll (emptyLRU 2 true : LRU Nat Nat) [(1, 10), (2, 20)]).Contains 3 = false ∧
    (addAll (emptyLRU 2 true : LRU Nat Nat) [(1, 10), (2, 20)]).Remove 3
      = .ret (addAll (emptyLRU 2 true : LRU Nat Nat) [(1, 10), (2, 20)]) false :=
  ⟨by decide,
   (remove_absent_key (addAll (emptyLRU 2 true : LRU Nat Nat) [(1, 10), (2, 20)]) 3
      (by decide)).1⟩

/-! ## Peek and the oldest entry -/

/-- C15, at `NewLRU(2, cb); Add(1, 10); Peek(1)`: `Contains(1)` is true, and
`Peek(1)` returns no pair at all: it panics, as `Get(1)` does. The state is
left as it was. -/
theorem peek_present_key_panics :
    (NewLRU 2 true : Except String (LRU Nat Nat)) = .ok (emptyLRU 2 true) ∧
    ((emptyLRU 2 true : LRU Nat Nat).Add 1 10).state.Contains 1 = true ∧
    (((emptyLRU 2 true : LRU Nat Nat).Add 1 10).state.Peek 1)
      = .panic ((emptyLRU 2 true : LRU Nat Nat).Add 1 10).state ∧
    (((emptyLRU 2 true : LRU Nat Nat).Add 1 10).state.Peek 1).result ≠ some (some 10, true) ∧
    (((emptyLRU 2 true : LRU Nat Nat).Add 1 10).state.Get 1).result = none := by
  refine ⟨rfl, ?_, ?_, ?_, ?_⟩ <;> decide

/-- C16, at `NewLRU(2, cb); Add(1, 10); Add(2, 20)`: on this non-empty cache
`GetOldest()` panics instead of returning `(1, 10, true)`, and `RemoveOldest()`
panics after unlinking the oldest element, without calling the callback. On the
empty cache both return `(nil, nil, false)`. -/
theorem oldest_on_nonempty_cache_panics :
    (NewLRU 2 true : Except String (LRU Nat Nat)) = .ok (emptyLRU 2 true) ∧
    (addAll (emptyLRU 2 true) [(1, 10), (2, 20)] : LRU Nat Nat).GetOldest
      = .panic (addAll (emptyLRU 2 true) [(1, 10), (2, 20)]) ∧
    (addAll (emptyLRU 2 true) [(1, 10), (2, 20)] : LRU Nat Nat).RemoveOldest
      = .panic { size := 2, evictList := [1], items := [(1, some 0), (2, some 1)],
                 onEvict := true, heap := [.entryStruct ⟨1, 10⟩, .entryStruct ⟨2, 20⟩],
                 calls := [] } ∧
    (emptyLRU 2 true : LRU Nat Nat).GetOldest = .ret (emptyLRU 2 true) (none, none, false) ∧
    (emptyLRU 2 true : LRU Nat Nat).RemoveOldest = .ret (emptyLRU 2 true) (none, none, false) := by
  refine ⟨rfl, ?_, ?_, ?_, ?_⟩ <;> decide

/-! ## Construction -/

/-- C17: `NewLRU(size, onEvict)` returns an error, and so no cache, exactly when
`size <= 0`; for `size >= 1` it returns a cache with `Len() == 0`, on which
`Keys()` returns the empty sequence, whose capacity is `size` and whose callback
is the one given, nil or not. -/
theorem NewLRU_error_iff_nonpositive {K V : Type} (size : Int) (onEvict : Bool) :
    ((∃ msg, (NewLRU size onEvict : Except String (LRU K V)) = .error msg) ↔ size ≤ 0) ∧
    ((∃ c, (NewLRU size onEvict : Except String (LRU K V)) = .ok c) ↔ 1 ≤ size) ∧
    (1 ≤ size → ∃ c : LRU K V, NewLRU size onEvict = .ok c ∧ c.Len = 0 ∧
      c.Keys = .ret c [] ∧ c.size = size ∧ c.onEvict = onEvict ∧ c.items = [] ∧ c.calls = []) := by
  unfold NewLRU
  by_cases h : size ≤ 0
  · rw [if_pos h]
    refine ⟨⟨fun _ => h, fun _ => ⟨_, rfl⟩⟩, ⟨?_, fun h1 => by omega⟩, fun h1 => by omega⟩
    rintro ⟨c, hc⟩
    cases hc
  · rw [if_neg h]
    refine ⟨⟨?_, fun h1 => absurd h1 h⟩, ⟨fun _ => by omega, fun _ => ⟨_, rfl⟩⟩, fun _ => ?_⟩
    · rintro ⟨msg, hm⟩
      cases hm
    · exact ⟨_, rfl, rfl, rfl, rfl, rfl, rfl, rfl⟩

/-- C17 at `NewLRU(3, nil)`. -/
theorem NewLRU_error_iff_nonpositive_witness :
    (1 : Int) ≤ 3 ∧
    ∃ c : LRU Nat Nat, NewLRU 3 false = .ok c ∧ c.Len = 0 ∧
      c.Keys = .ret c [] ∧ c.size = 3 ∧ c.onEvict = false ∧ c.items = [] ∧ c.calls = [] :=
  ⟨by decide, (NewLRU_error_iff_nonpositive 3 false).2.2 (by decide)⟩

/-! ## The recency order and the index -/

/-- C18, at `NewLRU(2, cb); Add(1, 10)`: the call returns, the reference model
holds the key list `[1]`, and `Keys()` returns no list: it panics. -/
theorem keys_diverges_from_reference_model :
    (NewLRU 2 true : Except String (LRU Nat Nat)) = .ok (emptyLRU 2 true) ∧
    runOps (emptyLRU 2 true : LRU Nat Nat) [Op.Add 1 10]
      = some { size := 2, evictList := [0], items := [(1, some 0)], onEvict := true,
               heap := [.entryStruct ⟨1, 10⟩], calls := [] } ∧
    refKeys 2 ([Op.Add 1 10] : List (Op Nat Nat)) = [1] ∧
    (LRU.Keys { size := 2, evictList := [0], items := [(1, some 0)], onEvict := true,
                heap := [.entryStruct ⟨1, 10⟩], calls := [] }
        : Outcome (LRU Nat Nat) (List Nat)).result = none ∧
    (LRU.Keys { size := 2, evictList := [0], items := [(1, some 0)], onEvict := true,
                heap := [.entryStruct ⟨1, 10⟩], calls := [] }
        : Outcome (LRU Nat Nat) (List Nat)).result
      ≠ some (refKeys 2 ([Op.Add 1 10] : List (Op Nat Nat))) := by
  refine ⟨rfl, ?_, ?_, ?_, ?_⟩ <;> decide

/-- As long as every call returns, the map and the list of a cache built by
`NewLRU` correspond one to one: a key is in the map exactly when a list element
carries it, no key is carried by two list elements, the map entry of a key
designates a list element that carries that key, every list element is
designated by the map entry of its key, and the map, which holds no key twice,
has `Len()` entries. No returning call has removed, moved or evicted an
element; what a call that panics leaves is not covered. -/
theorem correspondence_while_calls_return {K V : Type} [DecidableEq K] (size : Int) (onEvict : Bool)
    (ops : List (Op K V)) (c0 c : LRU K V)
    (h0 : NewLRU size onEvict = .ok c0) (h : runOps c0 ops = some c) :
    (∀ k, c.Contains k = true ↔ ∃ a ∈ c.evictList, c.keyAt a = some k) ∧
    (c.evictList.map c.keyAt).Nodup ∧
    (∀ k ptr, mapLookup c.items k = some ptr →
      ∃ a, ptr = some a ∧ a ∈ c.evictList ∧ c.keyAt a = some k) ∧
    (∀ a ∈ c.evictList, ∃ k, c.keyAt a = some k ∧ mapLookup c.items k = some (some a)) ∧
    (c.items.map Prod.fst).Nodup ∧
    (c.items.length : Int) = c.Len := by
  have hw0 : Wf c0 := by
    unfold NewLRU at h0
    split at h0
    · cases h0
    · injection h0 with h0
      rw [← h0]
      exact Wf_emptyLRU size onEvict
  obtain ⟨_, hptrs, hkeys, hnk, hnl, _⟩ := Wf_runOps ops c0 c hw0 h
  have h3 : ∀ k ptr, mapLookup c.items k = some ptr →
      ∃ a, ptr = some a ∧ a ∈ c.evictList ∧ c.keyAt a = some k := by
    intro k ptr hl
    have hm := mapLookup_mem c.items k ptr hl
    obtain ⟨a, ha1, ha2⟩ := hkeys (k, ptr) hm
    simp only at ha1 ha2
    refine ⟨a, ha1, ?_, ha2⟩
    have : ptr ∈ c.items.map Prod.snd := List.mem_map_of_mem Prod.snd hm
    rw [hptrs, ha1] at this
    simpa using this
  have h4 : ∀ a ∈ c.evictList, ∃ k, c.keyAt a = some k ∧ mapLookup c.items k = some (some a) := by
    intro a ha
    have : some a ∈ c.items.map Prod.snd := by
      rw [hptrs]
      simpa using ha
    obtain ⟨kv, hkv, hkv2⟩ := List.mem_map.mp this
    obtain ⟨b, hb1, hb2⟩ := hkeys kv hkv
    rw [hkv2] at hb1
    injection hb1 with hb1
    subst hb1
    refine ⟨kv.1, hb2, mapLookup_of_mem c.items kv.1 (some a) hnk ?_⟩
    rw [← hkv2]
    exact hkv
  refine ⟨fun k => ⟨fun hc => ?_, fun hc => ?_⟩, ?_, h3, h4, hnk, ?_⟩
  · unfold LRU.Contains at hc
    cases hl : mapLookup c.items k with
    | none => simp [hl] at hc
    | some ptr =>
      obtain ⟨a, _, ha2, ha3⟩ := h3 k ptr hl
      exact ⟨a, ha2, ha3⟩
  · obtain ⟨a, ha, hka⟩ := hc
    obtain ⟨k2, hk2, hl2⟩ := h4 a ha
    rw [hka] at hk2
    injection hk2 with hk2
    subst hk2
    simp [LRU.Contains, hl2]
  · apply List.Nodup.map_on _ hnl
    intro x hx y hy hxy
    obtain ⟨k1, hk1, hl1⟩ := h4 x hx
    obtain ⟨k2, hk2, hl2⟩ := h4 y hy
    rw [hk1, hk2] at hxy
    injection hxy with hxy
    subst hxy
    rw [hl1] at hl2
    injection hl2 with hl2
    injection hl2
  · have := congrArg List.length hptrs
    simp only [List.length_map, List.length_reverse] at this
    simp only [LRU.Len, list.Len]
    omega

/-- The correspondence at `NewLRU(3, cb); Add(1, 10); Add(2, 20); Get(5);
Remove(7); Resize(4); Add(3, 30)`, all of which return: the map has as many
entries as the list has elements. -/
theorem correspondence_while_calls_return_example :
    (NewLRU 3 true : Except String (LRU Nat Nat)) = .ok (emptyLRU 3 true) ∧
    runOps (emptyLRU 3 true : LRU Nat Nat)
        [Op.Add 1 10, Op.Add 2 20, Op.Get 5, Op.Remove 7, Op.Resize 4, Op.Add 3 30]
      = some { size := 4, evictList := [2, 1, 0], items := [(1, some 0), (2, some 1), (3, some 2)],
               onEvict := true,
               heap := [.entryStruct ⟨1, 10⟩, .entryStruct ⟨2, 20⟩, .entryStruct ⟨3, 30⟩],
               calls := [] } ∧
    (([(1, some 0), (2, some 1), (3, some 2)] : List (Nat × ElemPtr)).length : Int)
      = list.Len [2, 1, 0] :=
  ⟨rfl, by decide,
   (correspondence_while_calls_return 3 true
      [Op.Add 1 10, Op.Add 2 20, Op.Get 5, Op.Remove 7, Op.Resize 4, Op.Add 3 30]
      (emptyLRU 3 true)
      { size := 4, evictList := [2, 1, 0], items := [(1, some 0), (2, some 1), (3, some 2)],
        onEvict := true,
        heap := [.entryStruct ⟨1, 10⟩, .entryStruct ⟨2, 20⟩, .entryStruct ⟨3, 30⟩],
        calls := [] }
      rfl (by decide)).2.2.2.2.2⟩

/-- C19, at `NewLRU(1, cb); Add(1, 10); Add(2, 20)` and at `NewLRU(2, cb);
Add(1, 10); Remove(1)`: the overflowing `Add` and the `Remove` both panic in
`removeElement`, after unlinking the element and before deleting its key. In
the state the `Add` leaves the map holds the keys 1 and 2 while the only list
element carries key 2: `Contains(1)` is true, the map entry of key 1
designates the element at address 0, which is no longer in the list, and the
map has two entries against `Len() == 1`. In the state the `Remove` leaves the
map still holds key 1 and the list is empty. -/
theorem panic_in_removeElement_breaks_correspondence :
    (NewLRU 1 true : Except String (LRU Nat Nat)) = .ok (emptyLRU 1 true) ∧
    (((emptyLRU 1 true : LRU Nat Nat).Add 1 10).state.Add 2 20)
      = .panic { size := 1, evictList := [1], items := [(1, some 0), (2, some 1)],
                 onEvict := true, heap := [.entryStruct ⟨1, 10⟩, .entryStruct ⟨2, 20⟩],
                 calls := [] } ∧
    (((emptyLRU 1 true : LRU Nat Nat).Add 1 10).state.Add 2 20).state.Contains 1 = true ∧
    (((emptyLRU 1 true : LRU Nat Nat).Add 1 10).state.Add 2 20).state.evictList.map
        (((emptyLRU 1 true : LRU Nat Nat).Add 1 10).state.Add 2 20).state.keyAt = [some 2] ∧
    mapLookup (((emptyLRU 1 true : LRU Nat Nat).Add 1 10).state.Add 2 20).state.items 1
      = some (some 0) ∧
    0 ∉ (((emptyLRU 1 true : LRU Nat Nat).Add 1 10).state.Add 2 20).state.evictList ∧
    ((((emptyLRU 1 true : LRU Nat Nat).Add 1 10).state.Add 2 20).state.items.length : Int) = 2 ∧
    (((emptyLRU 1 true : LRU Nat Nat).Add 1 10).state.Add 2 20).state.Len = 1 ∧
    (NewLRU 2 true : Except String (LRU Nat Nat)) = .ok (emptyLRU 2 true) ∧
    (((emptyLRU 2 true : LRU Nat Nat).Add 1 10).state.Remove 1)
      = .panic { size := 2, evictList := [], items := [(1, some 0)], onEvict := true,
                 heap := [.entryStruct ⟨1, 10⟩], calls := [] } ∧
    (((emptyLRU 2 true : LRU Nat Nat).Add 1 10).state.Remove 1).state.Contains 1 = true ∧
    (((emptyLRU 2 true : LRU Nat Nat).Add 1 10).state.Remove 1).state.Len = 0 := by
  refine ⟨rfl, ?_, ?_, ?_, ?_, ?_, ?_, ?_, rfl, ?_, ?_, ?_⟩ <;> decide

/-! ## A capacity of zero -/

/-- C20, at `NewLRU(1, cb); Resize(0); Add(1, 10)`: `Resize(0)` returns 0 and
sets the capacity to 0; the `Add` that follows does not return `true`. It
panics in `removeElement`, the callback is not invoked and `Contains(1)` is
true afterwards. On a cache that holds an entry, `Resize(0)` itself panics. -/
theorem add_after_resize_zero_panics :
    (NewLRU 1 true : Except String (LRU Nat Nat)) = .ok (emptyLRU 1 true) ∧
    (emptyLRU 1 true : LRU Nat Nat).Resize 0 = .ret (emptyLRU 0 true) 0 ∧
    (emptyLRU 0 true : LRU Nat Nat).Add 1 10
      = .panic { size := 0, evictList := [], items := [(1, some 0)], onEvict := true,
                 heap := [.entryStruct ⟨1, 10⟩], calls := [] } ∧
    ((emptyLRU 0 true : LRU Nat Nat).Add 1 10).state.Contains 1 = true ∧
    (((emptyLRU 1 true : LRU Nat Nat).Add 1 10).state.Resize 0).result = none := by
  refine ⟨rfl, ?_, ?_, ?_, ?_⟩ <;> decide

end GolangLru
